import Mathlib

/-!
Shallow embedding of `convert.py`: a batch converter that globs
`downloads/*.usdz` beside the script, and for each match resets the host
application to an empty scene, imports the USDZ file, exports the scene as
GLB with fixed options, and prints a completion line.  The script is
straight-line code, so a run is modelled as the list of externally visible
operations (events) it performs, parameterised by the script directory and
by the directory listing of `downloads` (relative paths of the files under
it, nested files carrying a `/` in their relative path, in discovery
order).
-/

namespace Convert

/-- Index of the last occurrence of a character in a list, if any
(models Python `str.rfind` for a single character). -/
def lastIndexOf (c : Char) : List Char → Option Nat
  | [] => none
  | a :: as =>
    match lastIndexOf c as with
    | some i => some (i + 1)
    | none => if a = c then some 0 else none

/-- Model of Python `s.endswith(t)`. -/
def endsWithS (s t : String) : Bool :=
  decide (t.data.length ≤ s.data.length ∧
    s.data.drop (s.data.length - t.data.length) = t.data)

/-- Model of Python `s.startswith(t)`. -/
def startsWithS (s t : String) : Bool :=
  decide (s.data.take t.data.length = t.data)

/-- Whether a character occurs in a string. -/
def containsS (s : String) (c : Char) : Bool :=
  decide (c ∈ s.data)

/-- POSIX `os.path.join` for a single pair: if `b` is absolute it wins;
otherwise a separator is inserted unless `a` is empty or already ends
with one. -/
def pathJoin (a b : String) : String :=
  if startsWithS b "/" = true then b
  else if a = "" ∨ endsWithS a "/" = true then a ++ b
  else a ++ "/" ++ b

/-- Model of `os.path.basename`: the part of the path after the last `/`. -/
def basename (p : String) : String :=
  match lastIndexOf '/' p.data with
  | none => p
  | some i => String.mk (p.data.drop (i + 1))

/-- Model of `os.path.splitext`: split at the last dot, except that dots leading a
basename do not start an extension (so `.bashrc` has no extension). -/
def splitext (p : String) : String × String :=
  match lastIndexOf '.' p.data with
  | none => (p, "")
  | some di =>
    let start : Nat :=
      match lastIndexOf '/' p.data with
      | none => 0
      | some si => si + 1
    if start ≤ di ∧ ((p.data.drop start).take (di - start)).any (fun c => c != '.') = true then
      (String.mk (p.data.take di), String.mk (p.data.drop di))
    else (p, "")

/-- Whether `glob.glob(os.path.join(downloads_dir, "*.usdz"))` selects a
directory entry with relative path `n`: the entry must be a direct child
(no `/` in the relative path, since `glob` only lists the named directory),
must match `*.usdz` case-sensitively (i.e. end in `.usdz`), and must not be
hidden (`glob` never matches a leading dot with `*`). -/
def globMatch (n : String) : Bool :=
  !(containsS n '/') && endsWithS n ".usdz" && !(startsWithS n ".")

/-- The source line `downloads_dir = os.path.join(script_dir, "downloads")`. -/
def downloads_dir (sd : String) : String :=
  pathJoin sd "downloads"

/-- The source line `output_dir = os.path.join(script_dir, "output")`. -/
def output_dir (sd : String) : String :=
  pathJoin sd "output"

/-- The glob result `usdz_files`, given
the listing `entries` of the downloads directory: the matching entries,
in discovery order, each joined back onto the directory path. -/
def usdz_files (sd : String) (entries : List String) : List String :=
  (entries.filter globMatch).map (fun n => pathJoin (downloads_dir sd) n)

/-- The keyword arguments of the `bpy.ops.export_scene.gltf` call. -/
structure GltfArgs where
  filepath : String
  export_format : String
  export_image_format : String
  export_image_add_webp : Bool
  export_image_quality : Nat
  export_draco_mesh_compression_enable : Bool
  export_draco_mesh_compression_level : Nat
  deriving DecidableEq, Repr

/-- The externally visible operations the script performs, in order. -/
inductive Event where
  | makedirs (path : String) (exist_ok : Bool)
  | readFactorySettings (use_empty : Bool)
  | usdImport (filepath : String)
  | gltfExport (args : GltfArgs)
  | printLine (line : String)
  | exitCall (code : Nat)
  deriving DecidableEq, Repr

/-- The export call's arguments for a given output path: every non-path
argument is the literal constant written in the source. -/
def gltfArgsFor (glb : String) : GltfArgs :=
  { filepath := glb
    export_format := "GLB"
    export_image_format := "WEBP"
    export_image_add_webp := false
    export_image_quality := 15
    export_draco_mesh_compression_enable := true
    export_draco_mesh_compression_level := 6 }

/-- One iteration of the `for usdz_path in usdz_files` loop: compute the
output path from the basename with its extension stripped, reset the host
to an empty factory scene, import, export, print. -/
def loop_body (od usdz_path : String) : List Event :=
  let name := (splitext (basename usdz_path)).1
  let glb_path := pathJoin od (name ++ ".glb")
  [Event.readFactorySettings true,
   Event.usdImport usdz_path,
   Event.gltfExport (gltfArgsFor glb_path),
   Event.printLine ("DONE: " ++ glb_path)]

/-- The whole script, as the trace of events of a fault-free run:
`os.makedirs(output_dir, exist_ok=True)`, then either the no-files message
and `sys.exit(1)`, or the loop over the matched files. -/
def run (sd : String) (entries : List String) : List Event :=
  let od := output_dir sd
  Event.makedirs od true ::
    (if usdz_files sd entries = [] then
      [Event.printLine "No .usdz files found in downloads/", Event.exitCall 1]
    else (usdz_files sd entries).flatMap (loop_body od))

/-- The process exit status: 1 via `sys.exit(1)` when no file matches,
otherwise the implicit 0 after the loop. -/
def exit_status (sd : String) (entries : List String) : Nat :=
  if usdz_files sd entries = [] then 1 else 0

/-- The output path computed for an input path (the `glb_path` of the
loop body). -/
def glbPathOf (od usdz_path : String) : String :=
  pathJoin od ((splitext (basename usdz_path)).1 ++ ".glb")

/-- The arguments of the export calls of a trace, in order. -/
def exportEvents (tr : List Event) : List GltfArgs :=
  tr.filterMap (fun e =>
    match e with
    | Event.gltfExport a => some a
    | _ => none)

/-- The file paths written by the export calls of a trace, in order. -/
def exportPaths (tr : List Event) : List String :=
  (exportEvents tr).map GltfArgs.filepath

/-- The lines printed to standard output by a trace, in order. -/
def printedLines (tr : List Event) : List String :=
  tr.filterMap (fun e =>
    match e with
    | Event.printLine s => some s
    | _ => none)

/-- The printed lines that are completion messages. -/
def donePrints (tr : List Event) : List String :=
  (printedLines tr).filter (fun s => startsWithS s "DONE: ")

/-- The paths passed to the USD import calls of a trace, in order. -/
def importPaths (tr : List Event) : List String :=
  tr.filterMap (fun e =>
    match e with
    | Event.usdImport p => some p
    | _ => none)

/-- The filesystem path an event writes to (creates or overwrites),
if any: `makedirs` writes the directory, the export writes its file;
nothing else in the script writes, renames or deletes. -/
def writeTarget : Event → Option String
  | Event.makedirs p _ => some p
  | Event.gltfExport a => some a.filepath
  | _ => none

/-- All paths written by a trace, in order. -/
def writeTargets (tr : List Event) : List String :=
  tr.filterMap writeTarget

/-- Whether an event is a call into the host application's plugin
machinery (reset, import, export) — the calls that can raise. -/
def hostCall : Event → Bool
  | Event.readFactorySettings _ => true
  | Event.usdImport _ => true
  | Event.gltfExport _ => true
  | _ => false

/-- Whether an event is a host call that raises under the fault
oracle `raises`. -/
def faultAt (raises : Event → Bool) (e : Event) : Bool :=
  hostCall e && raises e

/-- Execute a straight-line trace under a fault oracle: events are
performed in order until the first host call that raises; that call is
attempted and the unhandled fault terminates the run (Boolean result
`true`).  There is no handler anywhere in the script. -/
def emitUntilFault (raises : Event → Bool) : List Event → List Event × Bool
  | [] => ([], false)
  | e :: es =>
    if faultAt raises e = true then ([e], true)
    else
      let r := emitUntilFault raises es
      (e :: r.1, r.2)

/-- A run of the script under a fault oracle. -/
def runWithFaults (sd : String) (entries : List String) (raises : Event → Bool) :
    List Event × Bool :=
  emitUntilFault raises (run sd entries)

/-! ### Helper lemmas on the string primitives -/

theorem lastIndexOf_eq_none {c : Char} {l : List Char} :
    lastIndexOf c l = none ↔ c ∉ l := by
  induction l with
  | nil => simp [lastIndexOf]
  | cons a as ih =>
    simp only [lastIndexOf]
    cases h : lastIndexOf c as with
    | some i => simp [h, ih.symm]
    | none =>
      have hnotin := ih.mp h
      by_cases hac : a = c
      · simp [hac]
      · simp [hac, hnotin, Ne.symm hac]

theorem lastIndexOf_append_some {c : Char} {ys : List Char} {k : Nat}
    (h : lastIndexOf c ys = some k) (xs : List Char) :
    lastIndexOf c (xs ++ ys) = some (xs.length + k) := by
  induction xs with
  | nil => simpa using h
  | cons a as ih =>
    show (match lastIndexOf c (as ++ ys) with
      | some i => some (i + 1)
      | none => if a = c then some 0 else none) = some ((a :: as).length + k)
    rw [ih]
    show some (as.length + k + 1) = some ((a :: as).length + k)
    exact congrArg some (by simp [List.length_cons]; omega)

theorem lastIndexOf_append_none {c : Char} {ys : List Char}
    (h : lastIndexOf c ys = none) (xs : List Char) :
    lastIndexOf c (xs ++ ys) = lastIndexOf c xs := by
  induction xs with
  | nil => simpa using h
  | cons a as ih =>
    show (match lastIndexOf c (as ++ ys) with
      | some i => some (i + 1)
      | none => if a = c then some 0 else none) =
      (match lastIndexOf c as with
      | some i => some (i + 1)
      | none => if a = c then some 0 else none)
    rw [ih]

theorem endsWithS_iff {s t : String} :
    endsWithS s t = true ↔ ∃ l, s.data = l ++ t.data := by
  constructor
  · intro h
    have h' := of_decide_eq_true h
    refine ⟨s.data.take (s.data.length - t.data.length), ?_⟩
    conv_lhs => rw [← List.take_append_drop (s.data.length - t.data.length) s.data]
    rw [h'.2]
  · rintro ⟨l, hl⟩
    apply decide_eq_true
    constructor
    · rw [hl, List.length_append]; omega
    · rw [hl, List.length_append, Nat.add_sub_cancel, List.drop_left]

theorem startsWithS_iff {s t : String} :
    startsWithS s t = true ↔ ∃ r, s.data = t.data ++ r := by
  constructor
  · intro h
    have h' := of_decide_eq_true h
    refine ⟨s.data.drop t.data.length, ?_⟩
    conv_lhs => rw [← List.take_append_drop t.data.length s.data]
    rw [h']
  · rintro ⟨r, hr⟩
    apply decide_eq_true
    rw [hr, List.take_left]

theorem containsS_iff {s : String} {c : Char} :
    containsS s c = true ↔ c ∈ s.data := by
  simp [containsS]

theorem startsWithS_false_of_not_mem {s : String} {c : Char}
    (hc : c ∉ s.data) (t : String) (ht : t.data = [c]) :
    startsWithS s t = false := by
  rw [Bool.eq_false_iff]
  intro h
  rcases startsWithS_iff.mp h with ⟨r, hr⟩
  rw [ht] at hr
  exact hc (by rw [hr]; exact List.mem_append_left _ (List.mem_singleton_self c))

theorem pathJoin_std (a b : String) (hb : startsWithS b "/" = false)
    (ha0 : a ≠ "") (ha1 : endsWithS a "/" = false) :
    pathJoin a b = a ++ "/" ++ b := by
  simp [pathJoin, hb, ha0, ha1]

theorem basename_concat (d n : String) (hn : '/' ∉ n.data) :
    basename (d ++ "/" ++ n) = n := by
  have hdata : (d ++ "/" ++ n).data = d.data ++ ('/' :: n.data) := by
    simp [String.data_append]
  have h1 : lastIndexOf '/' ('/' :: n.data) = some 0 := by
    have h0 : lastIndexOf '/' n.data = none := lastIndexOf_eq_none.mpr hn
    simp [lastIndexOf, h0]
  have h2 : lastIndexOf '/' (d ++ "/" ++ n).data = some (d.data.length + 0) := by
    rw [hdata]; exact lastIndexOf_append_some h1 d.data
  have h3 : (d ++ "/" ++ n).data.drop (d.data.length + 0 + 1) = n.data := by
    rw [hdata]
    have := @List.drop_append Char d.data ('/' :: n.data) 1
    simpa using this
  unfold basename
  rw [h2]
  apply String.ext
  exact h3

/-! ### Glob matching and path computation -/

theorem globMatch_iff {n : String} :
    globMatch n = true ↔
      containsS n '/' = false ∧ endsWithS n ".usdz" = true ∧ startsWithS n "." = false := by
  simp [globMatch, Bool.and_eq_true, Bool.not_eq_true']
  tauto

theorem globMatch_elim {n : String} (h : globMatch n = true) :
    '/' ∉ n.data ∧ ∃ c l, n.data = (c :: l) ++ (".usdz" : String).data ∧ c ≠ '.' := by
  rcases globMatch_iff.mp h with ⟨h1, h2, h3⟩
  have hslash : '/' ∉ n.data := by
    intro hc
    rw [containsS_iff.mpr hc] at h1
    cases h1
  refine ⟨hslash, ?_⟩
  rcases endsWithS_iff.mp h2 with ⟨l0, hl0⟩
  match l0, hl0 with
  | [], hl0 =>
    exfalso
    have : startsWithS n "." = true := by
      apply startsWithS_iff.mpr
      refine ⟨("usdz" : String).data, ?_⟩
      rw [hl0]
      rfl
    rw [this] at h3
    cases h3
  | c :: l, hl0 =>
    refine ⟨c, l, hl0, ?_⟩
    intro hc
    have : startsWithS n "." = true := by
      apply startsWithS_iff.mpr
      refine ⟨l ++ (".usdz" : String).data, ?_⟩
      rw [hl0, hc]
      rfl
    rw [this] at h3
    cases h3

theorem splitext_fst_usdz {n : String} (c : Char) (l : List Char)
    (hdata : n.data = (c :: l) ++ (".usdz" : String).data)
    (hc : c ≠ '.') (hslash : '/' ∉ n.data) :
    ((splitext n).1).data = c :: l := by
  have hdotz : lastIndexOf '.' (".usdz" : String).data = some 0 := by decide
  have hdi : lastIndexOf '.' n.data = some ((c :: l).length + 0) := by
    rw [hdata]
    exact lastIndexOf_append_some hdotz (c :: l)
  have hsl : lastIndexOf '/' n.data = none := lastIndexOf_eq_none.mpr hslash
  have hcond : 0 ≤ (c :: l).length + 0 ∧
      ((n.data.drop 0).take ((c :: l).length + 0 - 0)).any (fun x => x != '.') = true := by
    refine ⟨Nat.zero_le _, ?_⟩
    rw [List.drop_zero, Nat.add_zero, Nat.sub_zero, hdata, List.take_left]
    simp [List.any_cons, hc]
  unfold splitext
  rw [hdi, hsl]
  show ((if 0 ≤ (c :: l).length + 0 ∧
      ((n.data.drop 0).take ((c :: l).length + 0 - 0)).any (fun x => x != '.') = true then
      (String.mk (n.data.take ((c :: l).length + 0)), String.mk (n.data.drop ((c :: l).length + 0)))
    else (n, "")).1).data = c :: l
  rw [if_pos hcond]
  show (n.data.take ((c :: l).length + 0)) = c :: l
  rw [Nat.add_zero, hdata, List.take_left]

theorem matched_take_decomp {n : String} (h : globMatch n = true) :
    n.data = n.data.take (n.data.length - 5) ++ (".usdz" : String).data ∧
    ((splitext n).1).data = n.data.take (n.data.length - 5) := by
  rcases globMatch_elim h with ⟨hslash, c, l, hdata, hc⟩
  have hlen : n.data.length = (c :: l).length + 5 := by
    rw [hdata, List.length_append]
    rfl
  have htake : n.data.take (n.data.length - 5) = c :: l := by
    rw [hlen, Nat.add_sub_cancel, hdata, List.take_left]
  constructor
  · rw [htake]
    exact hdata
  · rw [htake]
    exact splitext_fst_usdz c l hdata hc hslash

/-- The two directories share the same prefix derived from the script
directory, followed by their own final component. -/
theorem dirs_shape (sd : String) : ∃ pre : List Char,
    (downloads_dir sd).data = pre ++ ("downloads" : String).data ∧
    (output_dir sd).data = pre ++ ("output" : String).data := by
  have h1 : startsWithS "downloads" "/" = false := by decide
  have h2 : startsWithS "output" "/" = false := by decide
  unfold downloads_dir output_dir pathJoin
  rw [h1, h2]
  by_cases h : sd = "" ∨ endsWithS sd "/" = true
  · rw [if_neg (by simp), if_pos h, if_neg (by simp), if_pos h]
    exact ⟨sd.data, by rw [String.data_append], by rw [String.data_append]⟩
  · rw [if_neg (by simp), if_neg h, if_neg (by simp), if_neg h]
    refine ⟨sd.data ++ ['/'], ?_, ?_⟩
    · rw [String.data_append, String.data_append, List.append_assoc]
    · rw [String.data_append, String.data_append, List.append_assoc]

theorem string_ne_empty_of_data {s : String} (x : List Char) {c : Char} {y : List Char}
    (hs : s.data = x ++ (c :: y)) : s ≠ "" := by
  intro h
  rw [h] at hs
  exact (List.cons_ne_nil c y) (List.append_eq_nil.mp hs.symm).2

theorem endsWith_slash_false_of {s : String} (pre m : List Char) (c : Char)
    (hs : s.data = pre ++ (m ++ [c])) (hc : c ≠ '/') :
    endsWithS s "/" = false := by
  rw [Bool.eq_false_iff]
  intro h
  rcases endsWithS_iff.mp h with ⟨l', hl'⟩
  have h1 : s.data.getLast? = some c := by
    rw [hs, ← List.append_assoc, List.getLast?_concat]
  have h2 : s.data.getLast? = some '/' := by
    have hd : ("/" : String).data = ['/'] := rfl
    rw [hl', hd, List.getLast?_concat]
  rw [h1] at h2
  exact hc (Option.some_inj.mp h2)

theorem output_dir_ne_empty (sd : String) : output_dir sd ≠ "" := by
  rcases dirs_shape sd with ⟨pre, _, ho⟩
  exact string_ne_empty_of_data pre (by rw [ho])

theorem output_dir_no_slash_end (sd : String) : endsWithS (output_dir sd) "/" = false := by
  rcases dirs_shape sd with ⟨pre, _, ho⟩
  exact endsWith_slash_false_of pre ['o', 'u', 't', 'p', 'u'] 't' (by rw [ho]; rfl) (by decide)

theorem downloads_dir_ne_empty (sd : String) : downloads_dir sd ≠ "" := by
  rcases dirs_shape sd with ⟨pre, hd, _⟩
  exact string_ne_empty_of_data pre (by rw [hd])

theorem downloads_dir_no_slash_end (sd : String) :
    endsWithS (downloads_dir sd) "/" = false := by
  rcases dirs_shape sd with ⟨pre, hd, _⟩
  exact endsWith_slash_false_of pre ['d', 'o', 'w', 'n', 'l', 'o', 'a', 'd'] 's'
    (by rw [hd]; rfl) (by decide)

theorem pathJoin_downloads {n : String} (sd : String) (hn : '/' ∉ n.data) :
    pathJoin (downloads_dir sd) n = downloads_dir sd ++ "/" ++ n := by
  exact pathJoin_std _ _ (startsWithS_false_of_not_mem hn "/" rfl)
    (downloads_dir_ne_empty sd) (downloads_dir_no_slash_end sd)

theorem mem_usdz_files {sd p : String} {entries : List String} :
    p ∈ usdz_files sd entries ↔
      ∃ n, n ∈ entries ∧ globMatch n = true ∧ p = downloads_dir sd ++ "/" ++ n := by
  unfold usdz_files
  rw [List.mem_map]
  constructor
  · rintro ⟨n, hn, hp⟩
    rcases List.mem_filter.mp hn with ⟨hmem, hmatch⟩
    exact ⟨n, hmem, hmatch, by
      rw [← hp, pathJoin_downloads sd (globMatch_elim hmatch).1]⟩
  · rintro ⟨n, hmem, hmatch, hp⟩
    refine ⟨n, List.mem_filter.mpr ⟨hmem, hmatch⟩, ?_⟩
    rw [pathJoin_downloads sd (globMatch_elim hmatch).1, hp]

/-- The stem of a matched name: everything before the final `.usdz`. -/
def stemOf (n : String) : String :=
  String.mk (n.data.take (n.data.length - 5))

theorem glbPathOf_matched (sd : String) {n : String} (h : globMatch n = true) :
    glbPathOf (output_dir sd) (downloads_dir sd ++ "/" ++ n) =
      output_dir sd ++ "/" ++ (stemOf n ++ ".glb") := by
  rcases globMatch_elim h with ⟨hslash, c, l, hdata, hc⟩
  have hbase : basename (downloads_dir sd ++ "/" ++ n) = n :=
    basename_concat (downloads_dir sd) n hslash
  have hstem : ((splitext n).1).data = n.data.take (n.data.length - 5) :=
    (matched_take_decomp h).2
  have hstem' : (splitext n).1 = stemOf n := String.ext hstem
  have hcne : c ≠ '/' := by
    intro hcc
    apply hslash
    rw [hdata, hcc]
    exact List.mem_append_left _ (List.mem_cons_self _ _)
  have hfirst : startsWithS (stemOf n ++ ".glb") "/" = false := by
    rw [Bool.eq_false_iff]
    intro hsw
    rcases startsWithS_iff.mp hsw with ⟨r, hr⟩
    have hstemdata : (stemOf n).data = c :: l := by
      rw [← hstem', splitext_fst_usdz c l hdata hc hslash]
    rw [String.data_append, hstemdata] at hr
    have : c = '/' := by
      have hd : ("/" : String).data = ['/'] := rfl
      rw [hd] at hr
      exact (List.cons_eq_cons.mp hr).1
    exact hcne this
  unfold glbPathOf
  rw [hbase, hstem']
  exact pathJoin_std _ _ hfirst (output_dir_ne_empty sd) (output_dir_no_slash_end sd)

theorem stemOf_inj {n m : String} (hn : globMatch n = true) (hm : globMatch m = true)
    (h : stemOf n = stemOf m) : n = m := by
  have h1 := (matched_take_decomp hn).1
  have h2 := (matched_take_decomp hm).1
  apply String.ext
  rw [h1, h2]
  have : (stemOf n).data = (stemOf m).data := by rw [h]
  unfold stemOf at this
  simp only at this
  rw [this]

theorem glbPath_inj_on_matched (sd : String) {n m : String}
    (hn : globMatch n = true) (hm : globMatch m = true)
    (h : glbPathOf (output_dir sd) (downloads_dir sd ++ "/" ++ n) =
         glbPathOf (output_dir sd) (downloads_dir sd ++ "/" ++ m)) : n = m := by
  rw [glbPathOf_matched sd hn, glbPathOf_matched sd hm] at h
  have hd := congrArg String.data h
  simp only [String.data_append, List.append_assoc] at hd
  have hd2 := List.append_cancel_left hd
  have hd3 := List.append_cancel_left hd2
  have hd4 : (stemOf n).data = (stemOf m).data := List.append_cancel_right hd3
  exact stemOf_inj hn hm (String.ext hd4)

theorem concat_inj_on_names {d n m : String}
    (h : d ++ "/" ++ n = d ++ "/" ++ m) : n = m := by
  have hd := congrArg String.data h
  simp only [String.data_append, List.append_assoc] at hd
  have := List.append_cancel_left hd
  have := List.append_cancel_left this
  exact String.ext this

theorem usdz_files_nodup {sd : String} {entries : List String}
    (h : entries.Nodup) : (usdz_files sd entries).Nodup := by
  unfold usdz_files
  apply List.Nodup.map_on
  · intro x hx y hy hxy
    have hxm := (List.mem_filter.mp hx).2
    have hym := (List.mem_filter.mp hy).2
    rw [pathJoin_downloads sd (globMatch_elim hxm).1,
      pathJoin_downloads sd (globMatch_elim hym).1] at hxy
    exact concat_inj_on_names hxy
  · exact h.filter _

/-! ### Trace-level lemmas -/

theorem loop_body_eq (od f : String) :
    loop_body od f = [Event.readFactorySettings true, Event.usdImport f,
      Event.gltfExport (gltfArgsFor (glbPathOf od f)),
      Event.printLine ("DONE: " ++ glbPathOf od f)] := rfl

theorem exportEvents_append (a b : List Event) :
    exportEvents (a ++ b) = exportEvents a ++ exportEvents b := by
  unfold exportEvents
  exact List.filterMap_append a b _

theorem printedLines_append (a b : List Event) :
    printedLines (a ++ b) = printedLines a ++ printedLines b := by
  unfold printedLines
  exact List.filterMap_append a b _

theorem importPaths_append (a b : List Event) :
    importPaths (a ++ b) = importPaths a ++ importPaths b := by
  unfold importPaths
  exact List.filterMap_append a b _

theorem writeTargets_append (a b : List Event) :
    writeTargets (a ++ b) = writeTargets a ++ writeTargets b := by
  unfold writeTargets
  exact List.filterMap_append a b _

theorem exportEvents_flatMap (od : String) (fs : List String) :
    exportEvents (fs.flatMap (loop_body od)) =
      fs.map (fun f => gltfArgsFor (glbPathOf od f)) := by
  induction fs with
  | nil => rfl
  | cons f fs ih =>
    rw [List.flatMap_cons, exportEvents_append, ih, List.map_cons]
    rfl

theorem printedLines_flatMap (od : String) (fs : List String) :
    printedLines (fs.flatMap (loop_body od)) =
      fs.map (fun f => "DONE: " ++ glbPathOf od f) := by
  induction fs with
  | nil => rfl
  | cons f fs ih =>
    rw [List.flatMap_cons, printedLines_append, ih, List.map_cons]
    rfl

theorem importPaths_flatMap (od : String) (fs : List String) :
    importPaths (fs.flatMap (loop_body od)) = fs := by
  induction fs with
  | nil => rfl
  | cons f fs ih =>
    rw [List.flatMap_cons, importPaths_append, ih]
    rfl

theorem writeTargets_flatMap (od : String) (fs : List String) :
    writeTargets (fs.flatMap (loop_body od)) = fs.map (glbPathOf od) := by
  induction fs with
  | nil => rfl
  | cons f fs ih =>
    rw [List.flatMap_cons, writeTargets_append, ih, List.map_cons]
    rfl

theorem run_eq_of_ne_nil {sd : String} {entries : List String}
    (h : usdz_files sd entries ≠ []) :
    run sd entries = Event.makedirs (output_dir sd) true ::
      (usdz_files sd entries).flatMap (loop_body (output_dir sd)) := by
  show Event.makedirs (output_dir sd) true ::
      (if usdz_files sd entries = [] then
        [Event.printLine "No .usdz files found in downloads/", Event.exitCall 1]
      else (usdz_files sd entries).flatMap (loop_body (output_dir sd))) = _
  rw [if_neg h]

theorem run_eq_of_nil {sd : String} {entries : List String}
    (h : usdz_files sd entries = []) :
    run sd entries = [Event.makedirs (output_dir sd) true,
      Event.printLine "No .usdz files found in downloads/", Event.exitCall 1] := by
  show Event.makedirs (output_dir sd) true ::
      (if usdz_files sd entries = [] then
        [Event.printLine "No .usdz files found in downloads/", Event.exitCall 1]
      else (usdz_files sd entries).flatMap (loop_body (output_dir sd))) = _
  rw [if_pos h]

theorem mem_loop_body {od f : String} {e : Event} :
    e ∈ loop_body od f ↔
      e = Event.readFactorySettings true ∨ e = Event.usdImport f ∨
      e = Event.gltfExport (gltfArgsFor (glbPathOf od f)) ∨
      e = Event.printLine ("DONE: " ++ glbPathOf od f) := by
  rw [loop_body_eq]
  simp

theorem startsWithS_append (t r : String) : startsWithS (t ++ r) t = true :=
  startsWithS_iff.mpr ⟨r.data, by rw [String.data_append]⟩

theorem glbPath_inj_on_files {sd : String} {entries : List String} :
    ∀ p ∈ usdz_files sd entries, ∀ q ∈ usdz_files sd entries,
      glbPathOf (output_dir sd) p = glbPathOf (output_dir sd) q → p = q := by
  intro p hp q hq hpq
  rcases mem_usdz_files.mp hp with ⟨n, _, hn, rfl⟩
  rcases mem_usdz_files.mp hq with ⟨m, _, hm, rfl⟩
  rw [glbPath_inj_on_matched sd hn hm hpq]

/-! ### Fault-model lemmas -/

theorem emitUntilFault_no_fault {raises : Event → Bool} {a : List Event}
    (h : ∀ e ∈ a, faultAt raises e = false) (b : List Event) :
    emitUntilFault raises (a ++ b) =
      (a ++ (emitUntilFault raises b).1, (emitUntilFault raises b).2) := by
  induction a with
  | nil => simp [emitUntilFault]
  | cons e es ih =>
    have he : faultAt raises e = false := h e (List.mem_cons_self e es)
    have ih' := ih (fun x hx => h x (List.mem_cons_of_mem e hx))
    show (if faultAt raises e = true then ([e], true) else
        ((e :: (emitUntilFault raises (es ++ b)).1, (emitUntilFault raises (es ++ b)).2))) = _
    rw [if_neg (by rw [he]; exact Bool.false_ne_true), ih']
    rfl

theorem emitUntilFault_fault_in_left {raises : Event → Bool} {a : List Event}
    (h : ∃ e ∈ a, faultAt raises e = true) (b : List Event) :
    emitUntilFault raises (a ++ b) = emitUntilFault raises a := by
  induction a with
  | nil => simp at h
  | cons e es ih =>
    by_cases he : faultAt raises e = true
    · show (if faultAt raises e = true then ([e], true) else _) =
        (if faultAt raises e = true then ([e], true) else _)
      rw [if_pos he, if_pos he]
    · have h' : ∃ x ∈ es, faultAt raises x = true := by
        rcases h with ⟨x, hx, hfx⟩
        rcases List.mem_cons.mp hx with rfl | hx'
        · exact absurd hfx he
        · exact ⟨x, hx', hfx⟩
      show (if faultAt raises e = true then ([e], true) else
          ((e :: (emitUntilFault raises (es ++ b)).1, (emitUntilFault raises (es ++ b)).2))) =
        (if faultAt raises e = true then ([e], true) else
          ((e :: (emitUntilFault raises es).1, (emitUntilFault raises es).2)))
      rw [if_neg he, if_neg he, ih h']

theorem emitUntilFault_snd_true {raises : Event → Bool} {l : List Event}
    (h : ∃ e ∈ l, faultAt raises e = true) : (emitUntilFault raises l).2 = true := by
  induction l with
  | nil => simp at h
  | cons e es ih =>
    by_cases he : faultAt raises e = true
    · show (if faultAt raises e = true then ([e], true) else _).2 = true
      rw [if_pos he]
    · have h' : ∃ x ∈ es, faultAt raises x = true := by
        rcases h with ⟨x, hx, hfx⟩
        rcases List.mem_cons.mp hx with rfl | hx'
        · exact absurd hfx he
        · exact ⟨x, hx', hfx⟩
      show (if faultAt raises e = true then ([e], true) else
        ((e :: (emitUntilFault raises es).1, (emitUntilFault raises es).2))).2 = true
      rw [if_neg he]
      exact ih h'

/-! ### The claims -/

/-- C1: a run exports exactly one GLB per discovered USDZ file, at the
path obtained by stripping the input basename's extension and appending
`.glb` under the output directory, and prints exactly one `DONE: <path>`
line per converted file, in discovery order; distinct inputs (a real
directory listing has no duplicate names) yield pairwise distinct
outputs, so exactly N files are produced for N inputs. -/
theorem c1_outputs_per_input (sd : String) (entries : List String) :
    exportPaths (run sd entries) =
      (usdz_files sd entries).map (glbPathOf (output_dir sd)) ∧
    exportPaths (run sd entries) =
      (entries.filter globMatch).map
        (fun n => output_dir sd ++ "/" ++ (stemOf n ++ ".glb")) ∧
    donePrints (run sd entries) =
      (usdz_files sd entries).map
        (fun f => "DONE: " ++ glbPathOf (output_dir sd) f) ∧
    (entries.Nodup → (exportPaths (run sd entries)).Nodup) := by
  by_cases hfs : usdz_files sd entries = []
  · have hfilter : entries.filter globMatch = [] := by
      have := hfs
      unfold usdz_files at this
      exact List.map_eq_nil_iff.mp this
    rw [run_eq_of_nil hfs, hfs, hfilter]
    refine ⟨rfl, rfl, rfl, fun _ => ?_⟩
    show List.Nodup []
    exact List.nodup_nil
  · have h1 : exportPaths (run sd entries) =
        (usdz_files sd entries).map (glbPathOf (output_dir sd)) := by
      rw [run_eq_of_ne_nil hfs]
      show exportPaths ((usdz_files sd entries).flatMap (loop_body (output_dir sd))) = _
      unfold exportPaths
      rw [exportEvents_flatMap, List.map_map]
      rfl
    refine ⟨h1, ?_, ?_, ?_⟩
    · rw [h1]
      unfold usdz_files
      rw [List.map_map]
      apply List.map_congr_left
      intro n hn
      have hmatch := (List.mem_filter.mp hn).2
      show glbPathOf (output_dir sd) (pathJoin (downloads_dir sd) n) = _
      rw [pathJoin_downloads sd (globMatch_elim hmatch).1, glbPathOf_matched sd hmatch]
    · rw [run_eq_of_ne_nil hfs]
      show donePrints ((usdz_files sd entries).flatMap (loop_body (output_dir sd))) = _
      unfold donePrints
      rw [printedLines_flatMap]
      apply List.filter_eq_self.mpr
      intro s hs
      rcases List.mem_map.mp hs with ⟨f, _, rfl⟩
      exact startsWithS_append "DONE: " _
    · intro hnd
      rw [h1]
      exact List.Nodup.map_on glbPath_inj_on_files (usdz_files_nodup hnd)

/-- C1 witness: with two concrete inputs the run exports the two
expected paths and prints the two DONE lines, with no duplicates. -/
theorem c1_outputs_per_input_witness :
    exportPaths (run "s" ["a.usdz", "b.usdz"]) = ["s/output/a.glb", "s/output/b.glb"] ∧
    donePrints (run "s" ["a.usdz", "b.usdz"]) =
      ["DONE: s/output/a.glb", "DONE: s/output/b.glb"] ∧
    (exportPaths (run "s" ["a.usdz", "b.usdz"])).Nodup := by
  have h := c1_outputs_per_input "s" ["a.usdz", "b.usdz"]
  refine ⟨?_, ?_, h.2.2.2 (by decide)⟩
  · rw [h.1]
    decide
  · rw [h.2.2.1]
    decide

/-- C2: with no matching input the run performs only the directory
creation, the message print and `sys.exit(1)`; with at least one match
the exit-1 path is never taken and the process ends with implicit
success (status 0). -/
theorem c2_empty_input_exit (sd : String) (entries : List String) :
    (usdz_files sd entries = [] →
      run sd entries = [Event.makedirs (output_dir sd) true,
        Event.printLine "No .usdz files found in downloads/", Event.exitCall 1] ∧
      exit_status sd entries = 1 ∧
      exportEvents (run sd entries) = []) ∧
    (usdz_files sd entries ≠ [] →
      (∀ c, Event.exitCall c ∉ run sd entries) ∧
      exit_status sd entries = 0) := by
  constructor
  · intro h
    refine ⟨run_eq_of_nil h, ?_, ?_⟩
    · unfold exit_status
      rw [if_pos h]
    · rw [run_eq_of_nil h]
      rfl
  · intro h
    constructor
    · intro c hc
      rw [run_eq_of_ne_nil h] at hc
      rcases List.mem_cons.mp hc with heq | hmem
      · cases heq
      · rcases List.mem_flatMap.mp hmem with ⟨f, _, hf⟩
        rcases mem_loop_body.mp hf with h' | h' | h' | h' <;> cases h'
    · unfold exit_status
      rw [if_neg h]

/-- C2 witness: instantiated at an empty listing and at a singleton
listing. -/
theorem c2_empty_input_exit_witness :
    run "s" ([] : List String) = [Event.makedirs (output_dir "s") true,
      Event.printLine "No .usdz files found in downloads/", Event.exitCall 1] ∧
    exit_status "s" [] = 1 ∧
    Event.exitCall 1 ∉ run "s" ["a.usdz"] ∧
    exit_status "s" ["a.usdz"] = 0 := by
  have h1 := (c2_empty_input_exit "s" []).1 (by decide)
  have h2 := (c2_empty_input_exit "s" ["a.usdz"]).2 (by decide)
  exact ⟨h1.1, h1.2.1, h2.1 1, h2.2⟩

/-- C4: every export call of every run carries exactly the fixed
configuration: GLB format, WEBP images, the WEBP add flag off, image
quality 15, Draco compression on at level 6 — independent of the
inputs (and the model has no other parameter an environment variable
or flag could feed). -/
theorem c4_fixed_export_config (sd : String) (entries : List String) :
    ∀ a ∈ exportEvents (run sd entries),
      a.export_format = "GLB" ∧ a.export_image_format = "WEBP" ∧
      a.export_image_add_webp = false ∧ a.export_image_quality = 15 ∧
      a.export_draco_mesh_compression_enable = true ∧
      a.export_draco_mesh_compression_level = 6 := by
  intro a ha
  by_cases hfs : usdz_files sd entries = []
  · rw [run_eq_of_nil hfs] at ha
    cases ha
  · rw [run_eq_of_ne_nil hfs] at ha
    have ha' : a ∈ exportEvents ((usdz_files sd entries).flatMap (loop_body (output_dir sd))) := ha
    rw [exportEvents_flatMap] at ha'
    rcases List.mem_map.mp ha' with ⟨f, _, rfl⟩
    exact ⟨rfl, rfl, rfl, rfl, rfl, rfl⟩

/-- C4 witness: the single export of a concrete run carries the fixed
configuration. -/
theorem c4_fixed_export_config_witness :
    (gltfArgsFor "s/output/a.glb") ∈ exportEvents (run "s" ["a.usdz"]) ∧
    (gltfArgsFor "s/output/a.glb").export_format = "GLB" ∧
    (gltfArgsFor "s/output/a.glb").export_draco_mesh_compression_level = 6 := by
  have hmem : (gltfArgsFor "s/output/a.glb") ∈ exportEvents (run "s" ["a.usdz"]) := by decide
  have h := c4_fixed_export_config "s" ["a.usdz"] _ hmem
  exact ⟨hmem, h.1, h.2.2.2.2.2⟩

/-- C5: the selected inputs are exactly the direct entries of the
downloads directory whose names end in `.usdz` case-sensitively and do
not start with a dot: an entry in a nested subdirectory (its relative
path contains `/`) or one whose extension differs in case is never
selected. -/
theorem c5_selection_characterisation (sd n : String) (entries : List String) :
    (downloads_dir sd ++ "/" ++ n) ∈ usdz_files sd entries ↔
      (n ∈ entries ∧ containsS n '/' = false ∧
        endsWithS n ".usdz" = true ∧ startsWithS n "." = false) := by
  constructor
  · intro h
    rcases mem_usdz_files.mp h with ⟨m, hmem, hmatch, heq⟩
    have : n = m := concat_inj_on_names heq
    subst this
    rcases globMatch_iff.mp hmatch with ⟨h1, h2, h3⟩
    exact ⟨hmem, h1, h2, h3⟩
  · rintro ⟨hmem, h1, h2, h3⟩
    exact mem_usdz_files.mpr ⟨n, hmem, globMatch_iff.mpr ⟨h1, h2, h3⟩, rfl⟩

/-- C5 witness: `b.usdz` is selected; `B.USDZ` (case difference) and
`sub/c.usdz` (nested) are not, although they are entries. -/
theorem c5_selection_characterisation_witness :
    (downloads_dir "s" ++ "/" ++ "b.usdz") ∈ usdz_files "s" ["B.USDZ", "sub/c.usdz", "b.usdz"] ∧
    (downloads_dir "s" ++ "/" ++ "B.USDZ") ∉ usdz_files "s" ["B.USDZ", "sub/c.usdz", "b.usdz"] ∧
    (downloads_dir "s" ++ "/" ++ "sub/c.usdz") ∉ usdz_files "s" ["B.USDZ", "sub/c.usdz", "b.usdz"] := by
  refine ⟨(c5_selection_characterisation "s" "b.usdz" _).mpr (by decide), ?_, ?_⟩
  · intro h
    have := (c5_selection_characterisation "s" "B.USDZ" _).mp h
    revert this
    decide
  · intro h
    have := (c5_selection_characterisation "s" "sub/c.usdz" _).mp h
    revert this
    decide

/-- C9: an entry whose name begins with a dot is never selected by the
glob, even when its name ends in `.usdz`. -/
theorem c9_hidden_never_matched (sd n : String) (entries : List String)
    (h : startsWithS n "." = true) :
    pathJoin (downloads_dir sd) n ∉ usdz_files sd entries := by
  have hsw : startsWithS n "/" = false := by
    rw [Bool.eq_false_iff]
    intro hs
    rcases startsWithS_iff.mp h with ⟨r, hr⟩
    rcases startsWithS_iff.mp hs with ⟨t, ht⟩
    have e1 : ("." : String).data = ['.'] := rfl
    have e2 : ("/" : String).data = ['/'] := rfl
    rw [e1] at hr
    rw [e2, hr] at ht
    exact absurd (List.cons_eq_cons.mp ht).1 (by decide)
  intro hmem
  rcases mem_usdz_files.mp hmem with ⟨m, _, hmatch, heq⟩
  rw [pathJoin_std _ _ hsw (downloads_dir_ne_empty sd) (downloads_dir_no_slash_end sd)] at heq
  have hnm : n = m := concat_inj_on_names heq
  subst hnm
  have := (globMatch_iff.mp hmatch).2.2
  rw [h] at this
  cases this

/-- C9 witness: the hidden entry `.hidden.usdz` is present in the
listing yet its path is not selected. -/
theorem c9_hidden_never_matched_witness :
    pathJoin (downloads_dir "s") ".hidden.usdz" ∉ usdz_files "s" [".hidden.usdz"] :=
  c9_hidden_never_matched "s" ".hidden.usdz" [".hidden.usdz"] (by decide)

/-- C6: a run's write targets are exactly the output directory (created
with `exist_ok`, so an existing directory and its unrelated contents are
kept) followed by the GLB paths of the discovered inputs: nothing else
in the output directory is written, and nothing is deleted (no event
deletes at all). -/
theorem c6_output_dir_frame (sd : String) (entries : List String) :
    writeTargets (run sd entries) =
      output_dir sd :: (usdz_files sd entries).map (glbPathOf (output_dir sd)) ∧
    Event.makedirs (output_dir sd) true ∈ run sd entries ∧
    (∀ p b, Event.makedirs p b ∈ run sd entries → p = output_dir sd ∧ b = true) := by
  by_cases hfs : usdz_files sd entries = []
  · rw [run_eq_of_nil hfs, hfs]
    refine ⟨rfl, List.mem_cons_self _ _, ?_⟩
    intro p b hmem
    rcases List.mem_cons.mp hmem with heq | hmem'
    · cases heq
      exact ⟨rfl, rfl⟩
    · rcases List.mem_cons.mp hmem' with heq | hmem''
      · cases heq
      · rcases List.mem_cons.mp hmem'' with heq | hmem'''
        · cases heq
        · cases hmem'''
  · rw [run_eq_of_ne_nil hfs]
    refine ⟨?_, List.mem_cons_self _ _, ?_⟩
    · show output_dir sd ::
        writeTargets ((usdz_files sd entries).flatMap (loop_body (output_dir sd))) = _
      rw [writeTargets_flatMap]
    · intro p b hmem
      rcases List.mem_cons.mp hmem with heq | hmem'
      · cases heq
        exact ⟨rfl, rfl⟩
      · rcases List.mem_flatMap.mp hmem' with ⟨f, _, hf⟩
        rcases mem_loop_body.mp hf with h' | h' | h' | h' <;> cases h'

/-- C6 witness: concrete run writing only the output directory and the
converted file. -/
theorem c6_output_dir_frame_witness :
    writeTargets (run "s" ["a.usdz"]) = ["s/output", "s/output/a.glb"] ∧
    Event.makedirs "s/output" true ∈ run "s" ["a.usdz"] ∧
    ("s/output" = output_dir "s" ∧ True = True) := by
  have h := c6_output_dir_frame "s" ["a.usdz"]
  have h3 := h.2.2 "s/output" true (by decide)
  refine ⟨?_, ?_, h3.1, rfl⟩
  · rw [h.1]
    decide
  · have := h.2.1
    have e : output_dir "s" = "s/output" := by decide
    rw [e] at this
    exact this

/-- Each import event in the flattened loop trace is immediately
preceded by a factory reset. -/
theorem reset_before_import_aux (od : String) (fs : List String) :
    ∀ k p, ((fs.flatMap (loop_body od)).get? (k + 1) = some (Event.usdImport p)) →
      (fs.flatMap (loop_body od)).get? k = some (Event.readFactorySettings true) := by
  induction fs with
  | nil =>
    intro k p h
    simp at h
  | cons f fs ih =>
    intro k p h
    rw [List.flatMap_cons, loop_body_eq] at h ⊢
    simp only [List.cons_append, List.nil_append] at h ⊢
    match k with
    | 0 => rfl
    | 1 =>
      rw [List.get?_cons_succ, List.get?_cons_succ, List.get?_cons_zero] at h
      cases h
    | 2 =>
      rw [List.get?_cons_succ, List.get?_cons_succ, List.get?_cons_succ,
        List.get?_cons_zero] at h
      cases h
    | 3 =>
      exfalso
      rw [List.get?_cons_succ, List.get?_cons_succ, List.get?_cons_succ,
        List.get?_cons_succ] at h
      match fs, h with
      | g :: gs, h =>
        rw [List.flatMap_cons, loop_body_eq] at h
        simp only [List.cons_append, List.get?_cons_zero] at h
        cases h
    | k + 4 =>
      rw [List.get?_cons_succ, List.get?_cons_succ, List.get?_cons_succ,
        List.get?_cons_succ] at h ⊢
      exact ih k p h

/-- C7: with at least one match, the run trace is the directory
creation followed by, for each discovered file in list order, exactly
the sequence reset / import / export / print; imports happen exactly on
the discovered files in discovery order, and any import event is
immediately preceded by a reset to the empty factory scene; the trace
is a single flat list, so iterations are strictly sequential. -/
theorem c7_iteration_shape (sd : String) (entries : List String)
    (h : usdz_files sd entries ≠ []) :
    run sd entries = Event.makedirs (output_dir sd) true ::
      (usdz_files sd entries).flatMap (loop_body (output_dir sd)) ∧
    (∀ f, loop_body (output_dir sd) f =
      [Event.readFactorySettings true, Event.usdImport f,
       Event.gltfExport (gltfArgsFor (glbPathOf (output_dir sd) f)),
       Event.printLine ("DONE: " ++ glbPathOf (output_dir sd) f)]) ∧
    importPaths (run sd entries) = usdz_files sd entries ∧
    (∀ k p, (run sd entries).get? (k + 1) = some (Event.usdImport p) →
      (run sd entries).get? k = some (Event.readFactorySettings true)) := by
  refine ⟨run_eq_of_ne_nil h, fun f => loop_body_eq _ f, ?_, ?_⟩
  · rw [run_eq_of_ne_nil h]
    show importPaths ((usdz_files sd entries).flatMap (loop_body (output_dir sd))) = _
    exact importPaths_flatMap _ _
  · intro k p hk
    rw [run_eq_of_ne_nil h] at hk ⊢
    match k with
    | 0 =>
      exfalso
      rw [List.get?_cons_succ] at hk
      match hfs : usdz_files sd entries, hk with
      | g :: gs, hk =>
        rw [List.flatMap_cons, loop_body_eq] at hk
        simp only [List.cons_append, List.get?_cons_zero] at hk
        cases hk
    | k + 1 =>
      rw [List.get?_cons_succ] at hk ⊢
      exact reset_before_import_aux _ _ k p hk

/-- C7 witness: instantiated at a concrete two-file run. -/
theorem c7_iteration_shape_witness :
    run "s" ["a.usdz", "b.usdz"] = Event.makedirs (output_dir "s") true ::
      (usdz_files "s" ["a.usdz", "b.usdz"]).flatMap (loop_body (output_dir "s")) ∧
    importPaths (run "s" ["a.usdz", "b.usdz"]) =
      ["s/downloads/a.usdz", "s/downloads/b.usdz"] ∧
    (run "s" ["a.usdz", "b.usdz"]).get? 1 = some (Event.readFactorySettings true) := by
  have h := c7_iteration_shape "s" ["a.usdz", "b.usdz"] (by decide)
  refine ⟨h.1, ?_, ?_⟩
  · rw [h.2.2.1]
    decide
  · exact h.2.2.2 1 "s/downloads/a.usdz" (by decide)

/-- C8: within one run (over a duplicate-free directory listing, as a
real directory is) the computed output paths are pairwise distinct, so
no iteration overwrites the GLB of an earlier one. -/
theorem c8_distinct_outputs (sd : String) (entries : List String)
    (h : entries.Nodup) :
    ((usdz_files sd entries).map (glbPathOf (output_dir sd))).Nodup :=
  List.Nodup.map_on glbPath_inj_on_files (usdz_files_nodup h)

/-- C8 witness: distinct concrete output paths. -/
theorem c8_distinct_outputs_witness :
    ((usdz_files "s" ["a.usdz", "b.usdz", "a.b.usdz"]).map
      (glbPathOf (output_dir "s"))).Nodup :=
  c8_distinct_outputs "s" ["a.usdz", "b.usdz", "a.b.usdz"] (by decide)

theorem append_head_clash {x y u v : List Char} {c d : Char} (hc : c ≠ d)
    (h : (c :: x) ++ u = (d :: y) ++ v) : False := by
  rw [List.cons_append, List.cons_append] at h
  exact hc (List.cons_eq_cons.mp h).1

/-- Every path a run writes is the output directory itself or one of
the computed GLB paths under it. -/
theorem writeTarget_shape {sd : String} {entries : List String} {e : Event}
    (he : e ∈ run sd entries) {p : String} (hp : writeTarget e = some p) :
    p = output_dir sd ∨ ∃ n, n ∈ entries ∧ globMatch n = true ∧
      p = output_dir sd ++ "/" ++ (stemOf n ++ ".glb") := by
  by_cases hfs : usdz_files sd entries = []
  · rw [run_eq_of_nil hfs] at he
    rcases List.mem_cons.mp he with rfl | he'
    · left
      cases hp
      rfl
    · rcases List.mem_cons.mp he' with rfl | he''
      · cases hp
      · rcases List.mem_cons.mp he'' with rfl | he'''
        · cases hp
        · cases he'''
  · rw [run_eq_of_ne_nil hfs] at he
    rcases List.mem_cons.mp he with rfl | he'
    · left
      cases hp
      rfl
    · rcases List.mem_flatMap.mp he' with ⟨f, hf, hef⟩
      rcases mem_loop_body.mp hef with rfl | rfl | rfl | rfl
      · cases hp
      · cases hp
      · right
        cases hp
        rcases mem_usdz_files.mp hf with ⟨n, hnm, hnmatch, rfl⟩
        exact ⟨n, hnm, hnmatch, glbPathOf_matched sd hnmatch⟩
      · cases hp

/-- C10: the script never writes, renames or deletes anything in the
downloads directory: every path passed to a writing operation is the
output directory or lies strictly inside it, is never the downloads
directory and never lies inside it.  (The event vocabulary has no
rename or delete at all, mirroring the source.) -/
theorem c10_downloads_untouched (sd : String) (entries : List String) :
    ∀ e ∈ run sd entries, ∀ p, writeTarget e = some p →
      (p = output_dir sd ∨ startsWithS p (output_dir sd ++ "/") = true) ∧
      startsWithS p (downloads_dir sd ++ "/") = false ∧
      p ≠ downloads_dir sd := by
  intro e he p hp
  rcases dirs_shape sd with ⟨pre, hd, ho⟩
  rcases (⟨_, rfl⟩ : ∃ t, ("output" : String).data = 'o' :: t) with ⟨t1, ht1⟩
  rcases (⟨_, rfl⟩ : ∃ t, ("downloads" : String).data = 'd' :: t) with ⟨t2, ht2⟩
  have hdd : (downloads_dir sd ++ "/").data = pre ++ (('d' :: t2) ++ ['/']) := by
    rw [String.data_append, hd, ht2, List.append_assoc]
  have h5 : t1.length = 5 := by
    have h' : ("output" : String).data.length = 6 := rfl
    rw [ht1] at h'
    simpa using h'
  have h9 : t2.length = 8 := by
    have h' : ("downloads" : String).data.length = 9 := rfl
    rw [ht2] at h'
    simpa using h'
  rcases writeTarget_shape he hp with hcase | ⟨n, _, _, hcase⟩
  · refine ⟨Or.inl hcase, ?_, ?_⟩
    · rw [Bool.eq_false_iff]
      intro hsw
      rcases startsWithS_iff.mp hsw with ⟨r, hr⟩
      rw [hcase, ho, hdd, List.append_assoc] at hr
      have hca := List.append_cancel_left hr
      rw [ht1] at hca
      have hlen := congrArg List.length hca
      simp [List.length_append] at hlen
      omega
    · intro hpd
      have hca : (output_dir sd).data = (downloads_dir sd).data := by rw [← hcase, hpd]
      rw [ho, hd] at hca
      have hca2 := List.append_cancel_left hca
      rw [ht1, ht2] at hca2
      have hlen := congrArg List.length hca2
      simp at hlen
      omega
  · have hpdata : p.data = pre ++ (('o' :: t1) ++ (['/'] ++ (stemOf n ++ ".glb").data)) := by
      rw [hcase]
      rw [String.data_append, String.data_append, ho, ht1, List.append_assoc,
        List.append_assoc]
    refine ⟨Or.inr ?_, ?_, ?_⟩
    · rw [hcase]
      exact startsWithS_append (output_dir sd ++ "/") _
    · rw [Bool.eq_false_iff]
      intro hsw
      rcases startsWithS_iff.mp hsw with ⟨r, hr⟩
      rw [hpdata, hdd, List.append_assoc] at hr
      exact append_head_clash (by decide) (List.append_cancel_left hr)
    · intro hpd
      have : p.data = (downloads_dir sd).data := by rw [hpd]
      rw [hpdata, hd, ht2] at this
      have h2 : ('o' :: t1) ++ (['/'] ++ (stemOf n ++ ".glb").data) = ('d' :: t2) ++ [] := by
        rw [List.append_nil]
        exact List.append_cancel_left this
      exact append_head_clash (by decide) h2

/-- C10 witness: the two write targets of a concrete run satisfy the
frame conditions. -/
theorem c10_downloads_untouched_witness :
    ("s/output/a.glb" = output_dir "s" ∨
      startsWithS "s/output/a.glb" (output_dir "s" ++ "/") = true) ∧
    startsWithS "s/output/a.glb" (downloads_dir "s" ++ "/") = false ∧
    "s/output/a.glb" ≠ downloads_dir "s" := by
  exact c10_downloads_untouched "s" ["a.usdz"]
    (Event.gltfExport (gltfArgsFor "s/output/a.glb")) (by decide) "s/output/a.glb" rfl

theorem emitUntilFault_cons_fault {raises : Event → Bool} {e : Event} (l : List Event)
    (h : faultAt raises e = true) :
    emitUntilFault raises (e :: l) = ([e], true) := by
  show (if faultAt raises e = true then ([e], true) else _) = _
  rw [if_pos h]

theorem emitUntilFault_cons_ok {raises : Event → Bool} {e : Event} (l : List Event)
    (h : faultAt raises e = false) :
    emitUntilFault raises (e :: l) =
      (e :: (emitUntilFault raises l).1, (emitUntilFault raises l).2) := by
  show (if faultAt raises e = true then ([e], true) else
    ((e :: (emitUntilFault raises l).1, (emitUntilFault raises l).2))) = _
  rw [if_neg (by rw [h]; exact Bool.false_ne_true)]

theorem faultAt_printLine (raises : Event → Bool) (s : String) :
    faultAt raises (Event.printLine s) = false := by
  unfold faultAt hostCall
  exact Bool.false_and _

theorem string_append_left_cancel {a b c : String} (h : a ++ b = a ++ c) : b = c := by
  apply String.ext
  apply List.append_cancel_left
  rw [← String.data_append, ← String.data_append, h]

/-- C3: when a host call (reset, import or export) of iteration `i`
raises — all earlier events having succeeded — the fault terminates the
whole batch: the flag is set, the only completion lines printed are
those of the earlier iterations, no later file is imported or exported
and its DONE line is never printed, and no import is retried. -/
theorem c3_fault_aborts_batch (sd : String) (entries : List String)
    (raises : Event → Bool) (i : Nat) (hnd : entries.Nodup)
    (hi : i < (usdz_files sd entries).length)
    (hpre : ∀ e ∈ Event.makedirs (output_dir sd) true ::
      ((usdz_files sd entries).take i).flatMap (loop_body (output_dir sd)),
      faultAt raises e = false)
    (hfault : ∃ e ∈ loop_body (output_dir sd) ((usdz_files sd entries).get ⟨i, hi⟩),
      faultAt raises e = true) :
    (runWithFaults sd entries raises).2 = true ∧
    printedLines (runWithFaults sd entries raises).1 =
      ((usdz_files sd entries).take i).map
        (fun f => "DONE: " ++ glbPathOf (output_dir sd) f) ∧
    (∀ j, ∀ hj : j < (usdz_files sd entries).length, i < j →
      Event.usdImport ((usdz_files sd entries).get ⟨j, hj⟩) ∉
        (runWithFaults sd entries raises).1 ∧
      (∀ a, Event.gltfExport a ∈ (runWithFaults sd entries raises).1 →
        a.filepath ≠ glbPathOf (output_dir sd) ((usdz_files sd entries).get ⟨j, hj⟩)) ∧
      Event.printLine ("DONE: " ++ glbPathOf (output_dir sd)
          ((usdz_files sd entries).get ⟨j, hj⟩)) ∉ (runWithFaults sd entries raises).1) ∧
    (importPaths (runWithFaults sd entries raises).1).Nodup := by
  have hfi : (usdz_files sd entries).get ⟨i, hi⟩ = (usdz_files sd entries)[i] := rfl
  set od := output_dir sd with hod
  set fs := usdz_files sd entries with hfs
  set B := loop_body od with hB
  set fi := fs.get ⟨i, hi⟩ with hfidef
  have hne : fs ≠ [] := by
    intro h0
    rw [h0] at hi
    simp at hi
  have hsplit : fs = fs.take i ++ fi :: fs.drop (i + 1) := by
    conv_lhs => rw [← List.take_append_drop i fs]
    rw [List.drop_eq_getElem_cons hi]
    rfl
  have hflat : fs.flatMap B = (fs.take i).flatMap B ++ (B fi ++ (fs.drop (i + 1)).flatMap B) := by
    conv_lhs => rw [hsplit]
    rw [List.flatMap_append, List.flatMap_cons]
  have hrun : run sd entries =
      (Event.makedirs od true :: (fs.take i).flatMap B) ++
        (B fi ++ (fs.drop (i + 1)).flatMap B) := by
    rw [run_eq_of_ne_nil hne, hflat]
    rw [List.cons_append]
  have hemit : runWithFaults sd entries raises =
      ((Event.makedirs od true :: (fs.take i).flatMap B) ++
        (emitUntilFault raises (B fi ++ (fs.drop (i + 1)).flatMap B)).1,
       (emitUntilFault raises (B fi ++ (fs.drop (i + 1)).flatMap B)).2) := by
    unfold runWithFaults
    rw [hrun]
    exact emitUntilFault_no_fault hpre _
  have hMR : emitUntilFault raises (B fi ++ (fs.drop (i + 1)).flatMap B) =
      emitUntilFault raises (B fi) := emitUntilFault_fault_in_left hfault _
  have htr : (runWithFaults sd entries raises).1 =
      (Event.makedirs od true :: (fs.take i).flatMap B) ++ (emitUntilFault raises (B fi)).1 := by
    rw [hemit, hMR]
  have hM : B fi = [Event.readFactorySettings true, Event.usdImport fi,
      Event.gltfExport (gltfArgsFor (glbPathOf od fi)),
      Event.printLine ("DONE: " ++ glbPathOf od fi)] := loop_body_eq od fi
  have hmid : (emitUntilFault raises (B fi)).1 = [Event.readFactorySettings true] ∨
      (emitUntilFault raises (B fi)).1 =
        [Event.readFactorySettings true, Event.usdImport fi] ∨
      (emitUntilFault raises (B fi)).1 =
        [Event.readFactorySettings true, Event.usdImport fi,
         Event.gltfExport (gltfArgsFor (glbPathOf od fi))] := by
    rw [hM]
    by_cases b1 : faultAt raises (Event.readFactorySettings true) = true
    · left
      rw [emitUntilFault_cons_fault _ b1]
    · have b1' : faultAt raises (Event.readFactorySettings true) = false :=
        Bool.eq_false_iff.mpr b1
      rw [emitUntilFault_cons_ok _ b1']
      by_cases b2 : faultAt raises (Event.usdImport fi) = true
      · right
        left
        rw [emitUntilFault_cons_fault _ b2]
      · have b2' : faultAt raises (Event.usdImport fi) = false :=
          Bool.eq_false_iff.mpr b2
        rw [emitUntilFault_cons_ok _ b2']
        by_cases b3 : faultAt raises (Event.gltfExport (gltfArgsFor (glbPathOf od fi))) = true
        · right
          right
          rw [emitUntilFault_cons_fault _ b3]
        · exfalso
          rw [hM] at hfault
          rcases hfault with ⟨e, he, hef⟩
          rcases List.mem_cons.mp he with rfl | he'
          · exact b1 hef
          rcases List.mem_cons.mp he' with rfl | he''
          · exact b2 hef
          rcases List.mem_cons.mp he'' with rfl | he'''
          · exact b3 hef
          rcases List.mem_cons.mp he''' with rfl | he''''
          · rw [faultAt_printLine] at hef
            cases hef
          · cases he''''
  have hL1prints : printedLines (Event.makedirs od true :: (fs.take i).flatMap B) =
      (fs.take i).map (fun f => "DONE: " ++ glbPathOf od f) := by
    show printedLines ((fs.take i).flatMap B) = _
    exact printedLines_flatMap od _
  have hfsnd : fs.Nodup := usdz_files_nodup hnd
  have hndsplit := hsplit ▸ hfsnd
  rcases List.nodup_append.mp hndsplit with ⟨hnd1, hnd2, hdisj⟩
  have hfi_not_take : fi ∉ fs.take i := fun hmem => hdisj hmem (List.mem_cons_self fi _)
  refine ⟨?_, ?_, ?_, ?_⟩
  · rw [hemit]
    refine emitUntilFault_snd_true ?_
    rcases hfault with ⟨e, he, hf⟩
    exact ⟨e, List.mem_append_left _ he, hf⟩
  · rw [htr, printedLines_append, hL1prints]
    rcases hmid with h | h | h <;> rw [h] <;> exact List.append_nil _
  · intro j hj hij
    have hfj : fs.get ⟨j, hj⟩ ∈ fs.drop (i + 1) := by
      have hlen : j - (i + 1) < (fs.drop (i + 1)).length := by
        rw [List.length_drop]
        omega
      have : (fs.drop (i + 1)).get ⟨j - (i + 1), hlen⟩ = fs.get ⟨j, hj⟩ := by
        show (fs.drop (i + 1))[j - (i + 1)] = fs[j]
        rw [List.getElem_drop]
        congr 1
        omega
      rw [← this]
      exact List.get_mem _ _ _
    have hfj_ne_fi : fs.get ⟨j, hj⟩ ≠ fi := by
      intro h0
      have : fi ∈ fs.drop (i + 1) := h0 ▸ hfj
      exact (List.nodup_cons.mp hnd2).1 this
    have hfj_not_take : fs.get ⟨j, hj⟩ ∉ fs.take i := fun hmem =>
      hdisj hmem (List.mem_cons_of_mem fi hfj)
    have hfj_mem : fs.get ⟨j, hj⟩ ∈ fs := List.get_mem fs j hj
    have hfi_mem : fi ∈ fs := List.get_mem fs i hi
    have hglb_ne : ∀ f, f ∈ fs → f ≠ fs.get ⟨j, hj⟩ →
        glbPathOf od f ≠ glbPathOf od (fs.get ⟨j, hj⟩) := by
      intro f hf hne0 heq
      exact hne0 (glbPath_inj_on_files f hf _ hfj_mem heq)
    refine ⟨?_, ?_, ?_⟩
    · rw [htr]
      intro hmem
      rcases List.mem_append.mp hmem with hmem1 | hmem2
      · rcases List.mem_cons.mp hmem1 with h0 | hmem1'
        · cases h0
        · rcases List.mem_flatMap.mp hmem1' with ⟨f, hf, hef⟩
          rcases mem_loop_body.mp hef with h0 | h0 | h0 | h0
          · cases h0
          · have : fs.get ⟨j, hj⟩ = f := by
              have := Event.usdImport.inj h0
              exact this
            exact hfj_not_take (this ▸ hf)
          · cases h0
          · cases h0
      · rcases hmid with h | h | h <;> rw [h] at hmem2
        · rcases List.mem_cons.mp hmem2 with h0 | h0
          · cases h0
          · cases h0
        · rcases List.mem_cons.mp hmem2 with h0 | hmem3
          · cases h0
          · rcases List.mem_cons.mp hmem3 with h0 | h0
            · exact hfj_ne_fi (Event.usdImport.inj h0)
            · cases h0
        · rcases List.mem_cons.mp hmem2 with h0 | hmem3
          · cases h0
          · rcases List.mem_cons.mp hmem3 with h0 | hmem4
            · exact hfj_ne_fi (Event.usdImport.inj h0)
            · rcases List.mem_cons.mp hmem4 with h0 | h0
              · cases h0
              · cases h0
    · intro a hmem heq
      rw [htr] at hmem
      rcases List.mem_append.mp hmem with hmem1 | hmem2
      · rcases List.mem_cons.mp hmem1 with h0 | hmem1'
        · cases h0
        · rcases List.mem_flatMap.mp hmem1' with ⟨f, hf, hef⟩
          rcases mem_loop_body.mp hef with h0 | h0 | h0 | h0
          · cases h0
          · cases h0
          · have ha := Event.gltfExport.inj h0
            have : a.filepath = glbPathOf od f := by
              rw [ha]
              rfl
            have hff : f ∈ fs := List.take_subset i fs hf
            exact hglb_ne f hff
              (fun h1 => hfj_not_take (h1 ▸ hf)) (this ▸ heq)
          · cases h0
      · have hain : a = gltfArgsFor (glbPathOf od fi) := by
          rcases hmid with h | h | h <;> rw [h] at hmem2
          · rcases List.mem_cons.mp hmem2 with h0 | h0
            · cases h0
            · cases h0
          · rcases List.mem_cons.mp hmem2 with h0 | hmem3
            · cases h0
            · rcases List.mem_cons.mp hmem3 with h0 | h0
              · cases h0
              · cases h0
          · rcases List.mem_cons.mp hmem2 with h0 | hmem3
            · cases h0
            · rcases List.mem_cons.mp hmem3 with h0 | hmem4
              · cases h0
              · rcases List.mem_cons.mp hmem4 with h0 | h0
                · exact Event.gltfExport.inj h0
                · cases h0
        have : a.filepath = glbPathOf od fi := by
          rw [hain]
          rfl
        exact hglb_ne fi hfi_mem (fun h1 => hfj_ne_fi h1.symm) (this ▸ heq)
    · rw [htr]
      intro hmem
      rcases List.mem_append.mp hmem with hmem1 | hmem2
      · rcases List.mem_cons.mp hmem1 with h0 | hmem1'
        · cases h0
        · rcases List.mem_flatMap.mp hmem1' with ⟨f, hf, hef⟩
          rcases mem_loop_body.mp hef with h0 | h0 | h0 | h0
          · cases h0
          · cases h0
          · cases h0
          · have hs0 := Event.printLine.inj h0
            have : glbPathOf od (fs.get ⟨j, hj⟩) = glbPathOf od f :=
              string_append_left_cancel hs0
            have hff : f ∈ fs := List.take_subset i fs hf
            exact hglb_ne f hff (fun h1 => hfj_not_take (h1 ▸ hf)) this.symm
      · rcases hmid with h | h | h <;> rw [h] at hmem2 <;>
          simp only [List.mem_cons, List.not_mem_nil, or_false] at hmem2
        · cases hmem2
        · rcases hmem2 with h0 | h0
          · cases h0
          · cases h0
        · rcases hmem2 with h0 | h0 | h0
          · cases h0
          · cases h0
          · cases h0
  · rw [htr, importPaths_append]
    have hL1imports : importPaths (Event.makedirs od true :: (fs.take i).flatMap B) =
        fs.take i := by
      show importPaths ((fs.take i).flatMap B) = _
      exact importPaths_flatMap od _
    rw [hL1imports]
    have hmid_imports : importPaths (emitUntilFault raises (B fi)).1 = [] ∨
        importPaths (emitUntilFault raises (B fi)).1 = [fi] := by
      rcases hmid with h | h | h <;> rw [h]
      · left
        rfl
      · right
        rfl
      · right
        rfl
    rcases hmid_imports with h | h <;> rw [h]
    · rw [List.append_nil]
      exact hnd1
    · rw [List.nodup_append]
      refine ⟨hnd1, List.nodup_singleton fi, ?_⟩
      intro a ha ha'
      rw [List.mem_singleton.mp ha'] at ha
      exact hfi_not_take ha

/-- C3 witness: when the import of the first file raises, the flag is
set, the second file is never imported, and nothing is printed. -/
theorem c3_fault_aborts_batch_witness :
    (runWithFaults "s" ["a.usdz", "b.usdz"]
      (fun e => decide (e = Event.usdImport "s/downloads/a.usdz"))).2 = true ∧
    Event.usdImport "s/downloads/b.usdz" ∉
      (runWithFaults "s" ["a.usdz", "b.usdz"]
        (fun e => decide (e = Event.usdImport "s/downloads/a.usdz"))).1 ∧
    printedLines (runWithFaults "s" ["a.usdz", "b.usdz"]
      (fun e => decide (e = Event.usdImport "s/downloads/a.usdz"))).1 = [] := by
  have h := c3_fault_aborts_batch "s" ["a.usdz", "b.usdz"]
    (fun e => decide (e = Event.usdImport "s/downloads/a.usdz")) 0
    (by decide) (by decide) (by decide) (by decide)
  refine ⟨h.1, ?_, ?_⟩
  · exact (h.2.2.1 1 (by decide) (by decide)).1
  · exact h.2.1

end Convert
